import Mathlib

/-!
Shallow embedding of the whale-position Telegram bot
(`profitable_whale_tracker_bot_table_function.py`).

Strings are modelled as `List Char` (Python `len`/slicing count code
points, which matches `List Char` length).  Python floats are modelled
as exact rationals `ℚ`; the 1e-6 floating-point tolerance of the spec is
subsumed by exact arithmetic.  Network calls are modelled by an explicit
outcome type (`FetchOutcome`); exceptions raised and caught inside the
Python code are modelled with `Except`, and totality of the Lean
functions models the fact that no exception escapes to the caller.
-/

/-- Convert a string literal to the `List Char` representation used
throughout the embedding. -/
def lit (s : String) : List Char := s.data

/-- The double-quote character (kept out of string literals). -/
def quot : Char := Char.ofNat 34

/-- The apostrophe character (kept out of string literals). -/
def apos : Char := Char.ofNat 39

/-- Concatenation of a list of character lists. -/
def concatAll : List (List Char) → List Char
  | [] => []
  | x :: xs => x ++ concatAll xs

/-- Does `pat` occur at the head of `l`? -/
def startsWith : List Char → List Char → Bool
  | [], _ => true
  | _ :: _, [] => false
  | p :: ps, c :: cs => p == c && startsWith ps cs

/-- Does `pat` occur anywhere inside `l` (contiguously)? -/
def hasSub (pat : List Char) : List Char → Bool
  | [] => pat.isEmpty
  | c :: rest => startsWith pat (c :: rest) || hasSub pat rest

/-- A JSON scalar value as it appears in a decoded upstream response.
`jcontainer` stands for any non-scalar value (array or object): the
Python float conversion raises on those, and they compare unequal to
every string. -/
inductive JVal where
  | jnum (q : ℚ)
  | jstr (s : List Char)
  | jbool (b : Bool)
  | jnull
  | jcontainer
deriving DecidableEq

/-- Read a maximal run of decimal digits: returns the accumulated value,
the number of digits read, and the remaining input.  Models the digit
scanning inside Python `float(str)`. -/
def readDigits : List Char → ℕ → ℕ → ℕ × ℕ × List Char
  | [], acc, cnt => (acc, cnt, [])
  | c :: rest, acc, cnt =>
    if c.isDigit then readDigits rest (acc * 10 + (c.toNat - 48)) (cnt + 1)
    else (acc, cnt, c :: rest)

/-- Read an optional sign; returns `true` when the value is negated. -/
def readSign : List Char → Bool × List Char
  | c :: rest =>
    if c = '-' then (true, rest)
    else if c = '+' then (false, rest)
    else (false, c :: rest)
  | [] => (false, [])

/-- Strip leading and trailing whitespace, as Python `float(str)` does. -/
def trimWS (s : List Char) : List Char :=
  ((s.dropWhile Char.isWhitespace).reverse.dropWhile Char.isWhitespace).reverse

/-- Model of Python `float(string)`: optional sign, digits with an
optional fractional part (at least one digit in total), and an optional
exponent.  Returns `none` when Python would raise `ValueError`. -/
def parseFloat (s : List Char) : Option ℚ :=
  let t := trimWS s
  let sg := readSign t
  let ipart := readDigits sg.2 0 0
  let fpart :=
    match ipart.2.2 with
    | c :: rest => if c = '.' then readDigits rest 0 0 else (0, 0, c :: rest)
    | [] => (0, 0, [])
  if ipart.2.1 + fpart.2.1 = 0 then none
  else
    let mant : ℚ := (ipart.1 : ℚ) + (fpart.1 : ℚ) / (10 : ℚ) ^ fpart.2.1
    let signed : ℚ := if sg.1 then -mant else mant
    match fpart.2.2 with
    | [] => some signed
    | e :: rest =>
      if e = 'e' ∨ e = 'E' then
        let esg := readSign rest
        let epart := readDigits esg.2 0 0
        if epart.2.1 = 0 ∨ epart.2.2 ≠ [] then none
        else some (signed * (if esg.1 then 1 / (10 : ℚ) ^ epart.1 else (10 : ℚ) ^ epart.1))
      else none

/-- Model of a Python `float(x)` call on a decoded JSON value: numbers
pass through, booleans become 0/1, strings are parsed, everything else
raises (modelled as `Except.error`). -/
def pyFloat : JVal → Except (List Char) ℚ
  | .jnum q => .ok q
  | .jbool b => .ok (if b then 1 else 0)
  | .jstr s =>
    match parseFloat s with
    | some q => .ok q
    | none => .error (lit "could not convert string to float")
  | .jnull => .error (lit "float argument must be a string or a number")
  | .jcontainer => .error (lit "float argument must be a string or a number")

/-- Position side, derived from the sign of the raw signed size. -/
inductive Side where
  | LONG
  | SHORT
deriving DecidableEq

/-- A normalized position record, as built by `get_whale_positions`
(the Python dict with keys coin/side/size/value/entry_price/mark_price/
pnl_usd/pnl_pct). -/
structure Pos where
  coin : List Char
  side : Side
  size : ℚ
  value : ℚ
  entry_price : ℚ
  mark_price : ℚ
  pnl_usd : ℚ
  pnl_pct : ℚ
deriving DecidableEq

/-- The inner `position` object of one upstream `assetPositions` entry.
Each field is `none` when the key is absent from the JSON object. -/
structure RawPosition where
  coin : Option JVal
  szi : Option JVal
  entryPx : Option JVal
  markPx : Option JVal
  unrealizedPnl : Option JVal

/-- One entry of the upstream `assetPositions` list; `position` is
`none` when the key is absent (Python then substitutes `{}`). -/
structure RawAssetPosition where
  position : Option RawPosition

/-- The decoded `clearinghouseState` response body; `assetPositions` is
`none` when the key is absent (Python then substitutes `[]`). -/
structure RawState where
  assetPositions : Option (List RawAssetPosition)

/-- The empty Python dict `{}` used as the default for a missing
`position` key. -/
def emptyRawPosition : RawPosition := ⟨none, none, none, none, none⟩

/-- Python truthiness of the `position` dict (`if position:`): an empty
dict is falsy. -/
def RawPosition.truthy (p : RawPosition) : Bool :=
  p.coin.isSome || p.szi.isSome || p.entryPx.isSome || p.markPx.isSome ||
    p.unrealizedPnl.isSome

/-- The token whitelist BTC / ETH / SOL (source line 64). -/
def WHITELISTED_TOKENS : List (List Char) := [lit "BTC", lit "ETH", lit "SOL"]

/-- Python membership test `coin in self.WHITELISTED_TOKENS`: only a
string can compare equal to a string. -/
def coinWhitelisted : JVal → Bool
  | .jstr c => WHITELISTED_TOKENS.contains c
  | _ => false

/-- Processing of one truthy `position` dict inside the loop of
`get_whale_positions` (source lines 203-233): whitelist filter, zero
size filter, field extraction with defaults, and derived metrics.
`.ok none` means the entry is skipped; `.error` models an exception
(which the enclosing try block turns into an empty overall result). -/
def processPosition (p : RawPosition) : Except (List Char) (Option Pos) :=
  match p.coin.getD (.jstr []) with
  | .jstr c =>
    if WHITELISTED_TOKENS.contains c then
      match pyFloat (p.szi.getD (.jnum 0)) with
      | .error e => .error e
      | .ok sz =>
        if sz = 0 then .ok none
        else
          match pyFloat (p.entryPx.getD (.jnum 0)) with
          | .error e => .error e
          | .ok entry_px =>
            match pyFloat (p.markPx.getD (.jnum entry_px)) with
            | .error e => .error e
            | .ok mark_px =>
              match pyFloat (p.unrealizedPnl.getD (.jnum 0)) with
              | .error e => .error e
              | .ok upnl =>
                .ok (some
                  { coin := c
                    side := if 0 < sz then Side.LONG else Side.SHORT
                    size := |sz|
                    value := |sz * mark_px|
                    entry_price := entry_px
                    mark_price := mark_px
                    pnl_usd := upnl
                    pnl_pct :=
                      if 0 < sz then
                        if 0 < entry_px then ((mark_px - entry_px) / entry_px) * 100 else 0
                      else
                        if 0 < entry_px then ((entry_px - mark_px) / entry_px) * 100 else 0 })
    else .ok none
  | _ => .ok none

/-- The `for asset_position in asset_positions` loop: an exception while
processing any entry aborts the whole loop (the caller catches it and
returns `[]`). -/
def processEntries : List RawAssetPosition → Except (List Char) (List Pos)
  | [] => .ok []
  | a :: rest =>
    if (a.position.getD emptyRawPosition).truthy then
      match processPosition (a.position.getD emptyRawPosition) with
      | .error e => .error e
      | .ok r =>
        match processEntries rest with
        | .error e => .error e
        | .ok rs => .ok (match r with | some p => p :: rs | none => rs)
    else processEntries rest

/-- Descending-by-value order used by the sort in `get_whale_positions`. -/
def valGE (a b : Pos) : Prop := b.value ≤ a.value

instance : DecidableRel valGE := fun a b => inferInstanceAs (Decidable (b.value ≤ a.value))

instance : IsTotal Pos valGE := ⟨fun a b => (le_total a.value b.value).symm⟩

instance : IsTrans Pos valGE := ⟨fun _ _ _ hab hbc => le_trans hbc hab⟩

/-- Stable sort by `value` descending, modelling the reverse sort on the
value key (source line 236). -/
def sortByValueDesc (ps : List Pos) : List Pos := List.insertionSort valGE ps

/-- Outcome of the HTTP POST performed by `get_whale_positions`:
a timeout, a connection error, or a response with a status code and a
decoded body (`Except.error` models a JSON-decoding or shape exception
while reading the body). -/
inductive FetchOutcome where
  | timeout
  | connError
  | response (status : ℕ) (body : Except (List Char) RawState)

/-- `get_whale_positions` (source lines 184-243): on a 200 response the
body is processed and sorted; every failure class (timeout, connection
error, non-200 status, body decode failure, exception while processing
entries) yields `[]`.  Totality of this function models the absence of
escaping exceptions. -/
def get_whale_positions : FetchOutcome → List Pos
  | .timeout => []
  | .connError => []
  | .response status body =>
    if status = 200 then
      match body with
      | .error _ => []
      | .ok st =>
        match processEntries (st.assetPositions.getD []) with
        | .ok ps => sortByValueDesc ps
        | .error _ => []
    else []

/-- Floor of a rational (numerator and denominator are in lowest terms
with positive denominator, so floored integer division is the floor). -/
def floorQ (q : ℚ) : ℤ := Int.fdiv q.num q.den

/-- Round a rational to the nearest integer, ties to even: models the
rounding used by Python fixed-point string formatting. -/
def rhe (q : ℚ) : ℤ :=
  if q - floorQ q < 1 / 2 then floorQ q
  else if 1 / 2 < q - floorQ q then floorQ q + 1
  else if floorQ q % 2 = 0 then floorQ q else floorQ q + 1

/-- Decimal digits of a natural number. -/
def natDigits (n : ℕ) : List Char := (Nat.repr n).data

/-- Insert a comma after every third character (input is reversed digits). -/
def group3r : List Char → List Char
  | a :: b :: c :: d :: rest => a :: b :: c :: ',' :: group3r (d :: rest)
  | l => l

/-- Insert thousands separators into a digit string. -/
def commaGroup (ds : List Char) : List Char := (group3r ds.reverse).reverse

/-- Python `f"{q:.0f}"`. -/
def fmt0 (q : ℚ) : List Char :=
  if q < 0 then '-' :: natDigits (rhe (-q)).toNat else natDigits (rhe q).toNat

/-- Python `f"{q:,.0f}"`. -/
def fmt0c (q : ℚ) : List Char :=
  if q < 0 then '-' :: commaGroup (natDigits (rhe (-q)).toNat)
  else commaGroup (natDigits (rhe q).toNat)

/-- Left-pad a digit string with zeros to the given width. -/
def padZeros (w : ℕ) (ds : List Char) : List Char :=
  List.replicate (w - ds.length) '0' ++ ds

/-- Python `f"{q:.2f}"` for a nonnegative argument. -/
def fmt2n (q : ℚ) : List Char :=
  natDigits ((rhe (q * 100)).toNat / 100) ++ '.' ::
    padZeros 2 (natDigits ((rhe (q * 100)).toNat % 100))

/-- Python `f"{q:.2f}"`. -/
def fmt2 (q : ℚ) : List Char := if q < 0 then '-' :: fmt2n (-q) else fmt2n q

/-- Python `f"{q:,.2f}"` for a nonnegative argument. -/
def fmt2cn (q : ℚ) : List Char :=
  commaGroup (natDigits ((rhe (q * 100)).toNat / 100)) ++ '.' ::
    padZeros 2 (natDigits ((rhe (q * 100)).toNat % 100))

/-- Python `f"{q:,.2f}"`. -/
def fmt2c (q : ℚ) : List Char := if q < 0 then '-' :: fmt2cn (-q) else fmt2cn q

/-- Python `f"{q:.4f}"` for a nonnegative argument. -/
def fmt4n (q : ℚ) : List Char :=
  natDigits ((rhe (q * 10000)).toNat / 10000) ++ '.' ::
    padZeros 4 (natDigits ((rhe (q * 10000)).toNat % 10000))

/-- Python `f"{q:.4f}"`. -/
def fmt4 (q : ℚ) : List Char := if q < 0 then '-' :: fmt4n (-q) else fmt4n q

/-- `format_value` (source lines 245-252). -/
def format_value (value : ℚ) : List Char :=
  if 1000000 ≤ value then '$' :: (fmt2 (value / 1000000) ++ ['M'])
  else if 1000 ≤ value then '$' :: (fmt0 (value / 1000) ++ ['K'])
  else '$' :: fmt0 value

/-- `format_price` (source lines 254-261). -/
def format_price (price : ℚ) : List Char :=
  if 1000 ≤ price then '$' :: fmt0c price
  else if 1 ≤ price then '$' :: fmt2c price
  else '$' :: fmt4 price

/-- `get_pnl_emoji` (source lines 263-284): tiered indicator chosen by
the P&L percentage. -/
def get_pnl_emoji (pnl_pct : ℚ) : List Char :=
  if 50 ≤ pnl_pct then lit "🚀🚀🚀"
  else if 20 ≤ pnl_pct then lit "🚀🚀"
  else if 10 ≤ pnl_pct then lit "🚀"
  else if 5 ≤ pnl_pct then lit "📈"
  else if 0 < pnl_pct then lit "✅"
  else if pnl_pct = 0 then lit "➖"
  else if -5 < pnl_pct then lit "📉"
  else if -10 < pnl_pct then lit "⚠️"
  else if -20 < pnl_pct then lit "🔻"
  else lit "💀"

/-- Python `html.escape` on one character (quote=True default). -/
def escapeChar (c : Char) : List Char :=
  if c = '&' then lit "&amp;"
  else if c = '<' then lit "&lt;"
  else if c = '>' then lit "&gt;"
  else if c = quot then lit "&quot;"
  else if c = apos then '&' :: lit "#x27;"
  else [c]

/-- Python `html.escape(name)` as used on whale display names. -/
def htmlEscape (s : List Char) : List Char := concatAll (s.map escapeChar)

/-- One whale configuration entry (address and display name). -/
structure WhaleConfig where
  address : List Char
  name : List Char

/-- Python slice `s[-n:]`. -/
def lastN (n : ℕ) (l : List Char) : List Char := l.drop (l.length - n)

/-- Rendering of the side enum. -/
def sideStr : Side → List Char
  | .LONG => lit "LONG"
  | .SHORT => lit "SHORT"

/-- Sum of the value fields of a position list (source line 308). -/
def sumVal (ps : List Pos) : ℚ := (ps.map Pos.value).sum

/-- The P&L line of one rendered position (source lines 333-339): both
the USD amount and the percentage are rendered as absolute values behind
a prefix chosen by the sign of `pnl_usd` alone. -/
def pnlLine (p : Pos) : List Char :=
  if 0 ≤ p.pnl_usd then
    lit "  P&L: <b>+" ++ format_value |p.pnl_usd| ++ lit "</b> (<b>+" ++
      fmt2 |p.pnl_pct| ++ lit "%</b>)\n"
  else
    lit "  P&L: <b>-" ++ format_value |p.pnl_usd| ++ lit "</b> (<b>-" ++
      fmt2 |p.pnl_pct| ++ lit "%</b>)\n"

/-- One rendered position block (source lines 321-341), including the
trailing blank line. -/
def posBlock (p : Pos) : List Char :=
  lit "<b>" ++ p.coin ++ lit " " ++ sideStr p.side ++ lit "</b> " ++
    get_pnl_emoji p.pnl_pct ++ lit "\n" ++
  lit "  Size: " ++ format_value p.value ++ lit "\n" ++
  lit "  Entry: " ++ format_price p.entry_price ++ lit "\n" ++
  lit "  Mark: " ++ format_price p.mark_price ++ lit "\n" ++
  pnlLine p ++ lit "\n"

/-- The 40-dash separator line content. -/
def dash40 : List Char := List.replicate 40 '-'

/-- The 40-equals separator line content. -/
def eq40 : List Char := List.replicate 40 '='

/-- The rendered block of one whale (source lines 311-343): linked escaped
name, truncated address, total value, separator, position blocks, and
the trailing extra newline appended after the position loop. -/
def whaleBlock (w : WhaleConfig) (ps : List Pos) : List Char :=
  lit "<b>📊 <a href=" ++ [apos] ++
    lit "https://www.coinglass.com/hyperliquid/" ++ w.address ++ [apos] ++
    lit ">" ++ htmlEscape w.name ++ lit "</a></b>\n" ++
  lit "<code>Address: " ++ w.address.take 6 ++ lit "..." ++ lastN 4 w.address ++
    lit "</code>\n" ++
  lit "<code>Total Value: " ++ format_value (sumVal ps) ++ lit "</code>\n" ++
  lit "<code>" ++ dash40 ++ lit "</code>\n" ++
  concatAll (ps.map posBlock) ++ lit "\n"

/-- The report header (source lines 291-293). -/
def header (ts : List Char) : List Char :=
  lit "<b>🐋 WHALE POSITIONS REPORT 🐋</b>\n<code>Generated: " ++ ts ++
    lit "</code>\n<code>" ++ eq40 ++ lit "</code>\n\n"

/-- The italic line emitted when no whale has qualifying positions
(source line 347). -/
def noActiveLine : List Char := lit "<i>No active BTC/ETH/SOL positions found</i>\n"

/-- The summary footer (source lines 349-353). -/
def footer (active total npos : ℕ) (value : ℚ) : List Char :=
  lit "<code>" ++ eq40 ++ lit "</code>\n<b>📈 SUMMARY</b>\nActive Whales: " ++
    natDigits active ++ lit "/" ++ natDigits total ++
    lit "\nTotal Positions: " ++ natDigits npos ++
    lit "\nTotal Value: " ++ format_value value ++ lit "\n"

/-- Accumulator of the whale loop in `get_all_whale_positions`:
the message built so far and the three running totals. -/
structure Agg where
  msg : List Char
  active : ℕ
  npos : ℕ
  value : ℚ

/-- The `for whale in self.whales` loop (source lines 300-343): a whale
whose fetched position list is empty is skipped; otherwise its block is
appended and the totals are updated. -/
def reportLoop (fetch : List Char → List Pos) : List WhaleConfig → Agg → Agg
  | [], acc => acc
  | w :: rest, acc =>
    if fetch w.address = [] then reportLoop fetch rest acc
    else reportLoop fetch rest
      { msg := acc.msg ++ whaleBlock w (fetch w.address)
        active := acc.active + 1
        npos := acc.npos + (fetch w.address).length
        value := acc.value + sumVal (fetch w.address) }

/-- `get_all_whale_positions` (source lines 286-355), with the timestamp
and the per-address fetch result as explicit parameters. -/
def get_all_whale_positions (ts : List Char) (whales : List WhaleConfig)
    (fetch : List Char → List Pos) : List Char :=
  let a := reportLoop fetch whales { msg := header ts, active := 0, npos := 0, value := 0 }
  if a.active = 0 then a.msg ++ noActiveLine
  else a.msg ++ footer a.active whales.length a.npos a.value

/-- Prefix a character onto the first segment of a split result. -/
def prependChar (c : Char) : List (List Char) → List (List Char)
  | [] => [[c]]
  | p :: ps => (c :: p) :: ps

/-- Python split of the message on the two-newline separator:
non-overlapping, left to right, keeping empty segments. -/
def splitNN : List Char → List (List Char)
  | [] => [[]]
  | '\n' :: '\n' :: rest => [] :: splitNN rest
  | c :: rest => prependChar c (splitNN rest)

/-- Join segments back with the two-newline separator. -/
def joinNN : List (List Char) → List Char
  | [] => []
  | [p] => p
  | p :: q :: rest => p ++ lit "\n\n" ++ joinNN (q :: rest)

/-- The accumulation loop of `split_message` (source lines 148-159). -/
def smLoop : List (List Char) → List (List Char) → List Char → List (List Char)
  | [], msgs, cur => if cur = [] then msgs else msgs ++ [cur]
  | p :: ps, msgs, cur =>
    if cur.length + p.length + 2 < 4000 then
      smLoop ps msgs (if cur = [] then p else cur ++ lit "\n\n" ++ p)
    else
      smLoop ps (if cur = [] then msgs else msgs ++ [cur]) p

/-- `split_message` (source lines 141-161). -/
def split_message (message : List Char) : List (List Char) :=
  smLoop (splitNN message) [] []

/-- The payload dispatch of `handle_message` (source lines 124-139):
split only when the full text exceeds 4000 characters. -/
def handlePayloads (msg : List Char) : List (List Char) :=
  if 4000 < msg.length then split_message msg else [msg]

/-- A segment that contains no two adjacent newlines and does not end
with a newline; splitting text after such a segment cannot interact
with a following separator. -/
def cleanSeg : List Char → Bool
  | [] => true
  | ['\n'] => false
  | '\n' :: '\n' :: _ => false
  | _ :: rest => cleanSeg rest

/-- The whales whose fetched position list is non-empty (exactly the
whales that contribute a block to the report). -/
def activeWhales (fetch : List Char → List Pos) (whales : List WhaleConfig) :
    List WhaleConfig :=
  whales.filter (fun w => decide (fetch w.address ≠ []))

/-- The P&L-percentage contract of one produced record, stated over the
stored fields of the record itself. -/
def pnlFormula (r : Pos) : Prop :=
  r.pnl_pct =
    if 0 < r.entry_price then
      if r.side = Side.LONG then ((r.mark_price - r.entry_price) / r.entry_price) * 100
      else ((r.entry_price - r.mark_price) / r.entry_price) * 100
    else 0

/-- Upstream body with one BTC long of size 2, entry 100, mark 150,
unrealized P&L 100 (the worked example of the spec). -/
def st5 : RawState :=
  ⟨some [⟨some ⟨some (.jstr (lit "BTC")), some (.jnum 2), some (.jnum 100),
    some (.jnum 150), some (.jnum 100)⟩⟩]⟩

/-- A successful 200 response carrying `st5`. -/
def o5 : FetchOutcome := .response 200 (.ok st5)

/-- The record produced from `st5`. -/
def r5 : Pos :=
  { coin := lit "BTC", side := .LONG, size := 2, value := 300, entry_price := 100,
    mark_price := 150, pnl_usd := 100, pnl_pct := 50 }

/-- A well-formed body with an empty position list. -/
def stGood : RawState := ⟨some []⟩

/-- A body whose only entry has a non-numeric signed-size string, so
processing it raises (and the whole call must degrade to empty). -/
def stBad : RawState :=
  ⟨some [⟨some ⟨some (.jstr (lit "BTC")), some (.jstr (lit "abc")), none, none, none⟩⟩]⟩

/-- A raw entry used to witness the per-entry filter: ETH short of
size 3, entry 10, absent mark price, unrealized P&L 1. -/
def p2 : RawPosition :=
  ⟨some (.jstr (lit "ETH")), some (.jnum (-3)), some (.jnum 10), none, some (.jnum 1)⟩

/-- Upstream body producing a record whose price-derived percentage is
negative while the upstream unrealized P&L is positive: BTC long of
size 1, entry 100, mark 50, unrealized P&L +5. -/
def st9 : RawState :=
  ⟨some [⟨some ⟨some (.jstr (lit "BTC")), some (.jnum 1), some (.jnum 100),
    some (.jnum 50), some (.jnum 5)⟩⟩]⟩

/-- The record produced from `st9`: pnl_pct is -50 but pnl_usd is +5. -/
def r9 : Pos :=
  { coin := lit "BTC", side := .LONG, size := 1, value := 50, entry_price := 100,
    mark_price := 50, pnl_usd := 5, pnl_pct := -50 }

/-- A fixed timestamp used by the concrete report examples. -/
def ts8 : List Char := lit "2024-01-01 00:00:00 UTC"

/-- A position with simple round numbers, used by the rendering examples. -/
def pos8 : Pos :=
  { coin := lit "BTC", side := .LONG, size := 2, value := 300, entry_price := 100,
    mark_price := 150, pnl_usd := 100, pnl_pct := 50 }

/-- A full report for one whale whose display name carries markup. -/
def msg8 : List Char :=
  get_all_whale_positions ts8 [⟨lit "0xdeadbeef1234", lit "<script>"⟩] (fun _ => [pos8])

/-- The address used by the oversized-report example. -/
def addr4 : List Char := lit "0xdeadbeef1234"

/-- A 4100-character display name: its escaped form is a newline-free
run longer than the 4000-character payload budget. -/
def bigName : List Char := List.replicate 4100 'a'

/-- The timestamp of the oversized-report example. -/
def ts4 : List Char := lit "2024-01-01 00:00:00 UTC"

/-- The single position of the oversized-report example. -/
def pos4 : Pos :=
  { coin := lit "BTC", side := .LONG, size := 2, value := 300, entry_price := 100,
    mark_price := 150, pnl_usd := 100, pnl_pct := 50 }

/-- Fetch result of the oversized-report example: one position per whale. -/
def fetch4 : List Char → List Pos := fun _ => [pos4]

/-- The generated report of the oversized-report example. -/
def msg4 : List Char := get_all_whale_positions ts4 [⟨addr4, bigName⟩] fetch4

/-- Everything of `msg4` before the big display name. -/
def u4 : List Char :=
  header ts4 ++ (lit "<b>📊 <a href=" ++ [apos] ++
    lit "https://www.coinglass.com/hyperliquid/" ++ addr4 ++ [apos] ++ lit ">")

/-- Everything of `msg4` after the big display name. -/
def w4t : List Char :=
  (lit "</a></b>\n" ++
    lit "<code>Address: " ++ addr4.take 6 ++ lit "..." ++ lastN 4 addr4 ++
      lit "</code>\n" ++
    lit "<code>Total Value: " ++ format_value (sumVal [pos4]) ++ lit "</code>\n" ++
    lit "<code>" ++ dash40 ++ lit "</code>\n" ++
    concatAll ([pos4].map posBlock) ++ lit "\n") ++
  footer 1 1 1 (sumVal [pos4])

theorem splitNN_ne_nil (s : List Char) : splitNN s ≠ [] := by
  induction s using splitNN.induct with
  | case1 => simp [splitNN]
  | case2 rest ih => simp [splitNN]
  | case3 c rest h ih =>
    rw [splitNN]
    · cases hs : splitNN rest with
      | nil => exact absurd hs ih
      | cons p ps => simp [prependChar]
    · exact h

theorem joinNN_cons_cons (p q : List Char) (rest : List (List Char)) :
    joinNN (p :: q :: rest) = p ++ lit "\n\n" ++ joinNN (q :: rest) := rfl

theorem joinNN_prependChar (c : Char) (l : List (List Char)) (h : l ≠ []) :
    joinNN (prependChar c l) = c :: joinNN l := by
  cases l with
  | nil => exact absurd rfl h
  | cons p ps =>
    cases ps with
    | nil => simp [prependChar, joinNN]
    | cons q qs => simp [prependChar, joinNN_cons_cons]

theorem joinNN_splitNN (s : List Char) : joinNN (splitNN s) = s := by
  induction s using splitNN.induct with
  | case1 => simp [splitNN, joinNN]
  | case2 rest ih =>
    rw [splitNN]
    cases hs : splitNN rest with
    | nil => exact absurd hs (splitNN_ne_nil rest)
    | cons p ps =>
      rw [joinNN_cons_cons]
      rw [hs] at ih
      simp [joinNN, ih, lit]
  | case3 c rest h ih =>
    rw [splitNN]
    · rw [joinNN_prependChar c _ (splitNN_ne_nil rest), ih]
    · exact h

/-- A segment that contains no two adjacent newlines and does not end
with a newline: splitting after it cannot interact with a following
separator. -/

theorem splitNN_clean_append (b : List Char) :
    ∀ a : List Char, cleanSeg a = true →
      splitNN (a ++ '\n' :: '\n' :: b) = a :: splitNN b := by
  intro a
  induction a using cleanSeg.induct with
  | case1 =>
    intro _
    simp [splitNN]
  | case2 =>
    intro h
    simp [cleanSeg] at h
  | case3 rest =>
    intro h
    simp [cleanSeg] at h
  | case4 c rest h1 h2 ih =>
    intro h
    rw [cleanSeg] at h
    · have hne : ∀ (r : List Char), c = '\n' → rest ++ '\n' :: '\n' :: b = '\n' :: r → False := by
        intro r hc hr
        subst hc
        cases rest with
        | nil => exact h1 rfl rfl
        | cons x xs =>
          simp at hr
          exact h2 xs rfl (by rw [hr.1])
      rw [List.cons_append, splitNN]
      · rw [ih h]
        simp [prependChar]
      · exact hne
    · exact h1
    · exact h2

theorem mem_smLoop_of_mem (m : List Char) :
    ∀ (parts msgs : List (List Char)) (cur : List Char),
      m ∈ msgs → m ∈ smLoop parts msgs cur := by
  intro parts
  induction parts with
  | nil =>
    intro msgs cur hm
    rw [smLoop]
    split
    · exact hm
    · exact List.mem_append_left _ hm
  | cons p ps ih =>
    intro msgs cur hm
    rw [smLoop]
    split
    · exact ih _ _ hm
    · apply ih
      split
      · exact hm
      · exact List.mem_append_left _ hm

theorem smLoop_big_cur :
    ∀ (parts msgs : List (List Char)) (cur : List Char),
      4000 < cur.length → ∃ m ∈ smLoop parts msgs cur, 4000 < m.length := by
  intro parts
  induction parts with
  | nil =>
    intro msgs cur hc
    rw [smLoop]
    have hne : ¬(cur = []) := by
      intro h
      rw [h] at hc
      simp at hc
    rw [if_neg hne]
    exact ⟨cur, List.mem_append_right _ (List.mem_singleton.2 rfl), hc⟩
  | cons p ps ih =>
    intro msgs cur hc
    rw [smLoop]
    have hcond : ¬(cur.length + p.length + 2 < 4000) := by omega
    rw [if_neg hcond]
    have hne : ¬(cur = []) := by
      intro h
      rw [h] at hc
      simp at hc
    rw [if_neg hne]
    exact ⟨cur, mem_smLoop_of_mem cur ps _ p (List.mem_append_right _ (List.mem_singleton.2 rfl)), hc⟩

theorem smLoop_big_part :
    ∀ (parts msgs : List (List Char)) (cur : List Char),
      (∃ p ∈ parts, 4000 < p.length) → ∃ m ∈ smLoop parts msgs cur, 4000 < m.length := by
  intro parts
  induction parts with
  | nil =>
    intro msgs cur h
    obtain ⟨p, hp, _⟩ := h
    exact absurd hp (List.not_mem_nil p)
  | cons p ps ih =>
    intro msgs cur h
    obtain ⟨q, hq, hqlen⟩ := h
    rw [List.mem_cons] at hq
    cases hq with
    | inl hq =>
      subst hq
      rw [smLoop]
      have hcond : ¬(cur.length + q.length + 2 < 4000) := by omega
      rw [if_neg hcond]
      exact smLoop_big_cur ps _ q hqlen
    | inr hq =>
      rw [smLoop]
      split
      · exact ih _ _ ⟨q, hq, hqlen⟩
      · exact ih _ _ ⟨q, hq, hqlen⟩

theorem split_message_big_part (s : List Char)
    (h : ∃ p ∈ splitNN s, 4000 < p.length) :
    ∃ m ∈ split_message s, 4000 < m.length :=
  smLoop_big_part (splitNN s) [] [] h

theorem smLoop_bound :
    ∀ (parts msgs : List (List Char)) (cur : List Char),
      (∀ p ∈ parts, p.length ≤ 3997) → (∀ m ∈ msgs, m.length ≤ 4000) →
      cur.length ≤ 3999 → ∀ m ∈ smLoop parts msgs cur, m.length ≤ 4000 := by
  intro parts
  induction parts with
  | nil =>
    intro msgs cur _ hmsgs hcur m hm
    rw [smLoop] at hm
    split at hm
    · exact hmsgs m hm
    · rw [List.mem_append] at hm
      cases hm with
      | inl hm => exact hmsgs m hm
      | inr hm =>
        rw [List.mem_singleton] at hm
        subst hm
        omega
  | cons p ps ih =>
    intro msgs cur hparts hmsgs hcur m hm
    have hp : p.length ≤ 3997 := hparts p (List.mem_cons_self p ps)
    have hps : ∀ q ∈ ps, q.length ≤ 3997 := fun q hq => hparts q (List.mem_cons_of_mem p hq)
    rw [smLoop] at hm
    split at hm
    case isTrue hcond =>
      refine ih _ _ hps hmsgs ?_ m hm
      split
      · omega
      · simp only [List.length_append]
        have : (lit "\n\n").length = 2 := rfl
        omega
    case isFalse hcond =>
      refine ih _ _ hps ?_ (by omega) m hm
      intro x hx
      split at hx
      · exact hmsgs x hx
      · rw [List.mem_append] at hx
        cases hx with
        | inl hx => exact hmsgs x hx
        | inr hx =>
          rw [List.mem_singleton] at hx
          subst hx
          omega

theorem smLoop_msgs_factor :
    ∀ (parts msgs1 msgs2 : List (List Char)) (cur : List Char),
      smLoop parts (msgs1 ++ msgs2) cur = msgs1 ++ smLoop parts msgs2 cur := by
  intro parts
  induction parts with
  | nil =>
    intro msgs1 msgs2 cur
    rw [smLoop, smLoop]
    split
    · rfl
    · rw [List.append_assoc]
  | cons p ps ih =>
    intro msgs1 msgs2 cur
    rw [smLoop, smLoop]
    by_cases hcond : cur.length + p.length + 2 < 4000
    · rw [if_pos hcond, if_pos hcond, ih]
    · rw [if_neg hcond, if_neg hcond]
      by_cases hcur : cur = []
      · rw [if_pos hcur, if_pos hcur, ih]
      · rw [if_neg hcur, if_neg hcur, List.append_assoc, ih]

theorem smLoop_ne_nil :
    ∀ (parts msgs : List (List Char)) (cur : List Char),
      msgs ≠ [] ∨ cur ≠ [] → smLoop parts msgs cur ≠ [] := by
  intro parts
  induction parts with
  | nil =>
    intro msgs cur h
    rw [smLoop]
    split
    case isTrue hcur =>
      cases h with
      | inl h => exact h
      | inr h => exact absurd hcur h
    case isFalse hcur => simp
  | cons p ps ih =>
    intro msgs cur h
    rw [smLoop]
    split
    · apply ih
      split
      case isTrue hcur =>
        cases h with
        | inl h => exact Or.inl h
        | inr h => exact absurd hcur h
      case isFalse hcur =>
        right
        intro he
        apply hcur
        cases cur with
        | nil => rfl
        | cons c cs => simp at he
    · apply ih
      left
      split
      case isTrue hcur =>
        cases h with
        | inl h => exact h
        | inr h => exact absurd hcur h
      case isFalse hcur => simp

theorem joinNN_glue (a b : List Char) (l : List (List Char)) :
    joinNN ((a ++ lit "\n\n" ++ b) :: l) = a ++ lit "\n\n" ++ joinNN (b :: l) := by
  cases l with
  | nil => simp [joinNN]
  | cons q qs => simp [joinNN_cons_cons, List.append_assoc]

theorem joinNN_smLoop :
    ∀ (parts : List (List Char)) (cur : List Char),
      (∀ p ∈ parts, p ≠ []) → cur ≠ [] →
      joinNN (smLoop parts [] cur) = joinNN (cur :: parts) := by
  intro parts
  induction parts with
  | nil =>
    intro cur _ hcur
    rw [smLoop, if_neg hcur]
    rfl
  | cons p ps ih =>
    intro cur hparts hcur
    have hp : p ≠ [] := hparts p (List.mem_cons_self p ps)
    have hps : ∀ q ∈ ps, q ≠ [] := fun q hq => hparts q (List.mem_cons_of_mem p hq)
    rw [smLoop]
    split
    · rw [ih _ hps (by simp [hcur])]
      rw [joinNN_glue]
      rfl
    · have hfact : smLoop ps ([] ++ [cur]) p = [cur] ++ smLoop ps [] p :=
        smLoop_msgs_factor ps [cur] [] p
      simp only [List.nil_append] at hfact ⊢
      rw [hfact]
      have hne : smLoop ps [] p ≠ [] := smLoop_ne_nil ps [] p (Or.inr hp)
      cases hsm : smLoop ps [] p with
      | nil => exact absurd hsm hne
      | cons m ms =>
        rw [List.singleton_append, joinNN_cons_cons]
        have ih2 := ih p hps hp
        rw [hsm] at ih2
        rw [ih2]
        rfl

theorem smLoop_cons_nil (p : List Char) (ps msgs : List (List Char)) :
    smLoop (p :: ps) msgs [] = smLoop ps msgs p := by
  rw [smLoop]
  split
  · rw [if_pos rfl]
  · rw [if_pos rfl]

/-- The whales whose fetched position list is non-empty. -/

theorem reportLoop_spec (fetch : List Char → List Pos) :
    ∀ (whales : List WhaleConfig) (acc : Agg),
      reportLoop fetch whales acc =
        { msg := acc.msg ++
            concatAll ((activeWhales fetch whales).map (fun w => whaleBlock w (fetch w.address)))
          active := acc.active + (activeWhales fetch whales).length
          npos := acc.npos +
            (((activeWhales fetch whales).map (fun w => (fetch w.address).length)).sum)
          value := acc.value +
            (((activeWhales fetch whales).map (fun w => sumVal (fetch w.address))).sum) } := by
  intro whales
  induction whales with
  | nil =>
    intro acc
    simp [reportLoop, activeWhales, concatAll]
  | cons w ws ih =>
    intro acc
    rw [reportLoop]
    by_cases h : fetch w.address = []
    · rw [if_pos h, ih]
      have : activeWhales fetch (w :: ws) = activeWhales fetch ws := by
        simp [activeWhales, List.filter_cons, h]
      rw [this]
    · rw [if_neg h, ih]
      have : activeWhales fetch (w :: ws) = w :: activeWhales fetch ws := by
        simp [activeWhales, List.filter_cons, h]
      rw [this]
      simp [List.append_assoc, add_assoc, concatAll]
      omega

/-- The P&L-percentage contract of one produced record, stated over the
record's own stored fields. -/

theorem processPosition_pnl (q : RawPosition) (r : Pos)
    (h : processPosition q = .ok (some r)) : pnlFormula r := by
  unfold processPosition at h
  split at h
  case h_2 => exact absurd h (by simp)
  case h_1 c =>
    split at h
    case isFalse => exact absurd h (by simp)
    case isTrue =>
      split at h
      case h_1 => exact absurd h (by simp)
      case h_2 sz hsz =>
        split at h
        case isTrue => exact absurd h (by simp)
        case isFalse hsz0 =>
          split at h
          case h_1 => exact absurd h (by simp)
          case h_2 e he =>
            split at h
            case h_1 => exact absurd h (by simp)
            case h_2 m hm =>
              split at h
              case h_1 => exact absurd h (by simp)
              case h_2 u hu =>
                rw [Except.ok.injEq, Option.some.injEq] at h
                subst h
                unfold pnlFormula
                by_cases hszpos : 0 < sz <;> by_cases hepos : 0 < e <;>
                  simp [hszpos, hepos]

theorem processEntries_pnl :
    ∀ (l : List RawAssetPosition) (ps : List Pos),
      processEntries l = .ok ps → ∀ r ∈ ps, pnlFormula r := by
  intro l
  induction l with
  | nil =>
    intro ps h r hr
    rw [processEntries] at h
    rw [Except.ok.injEq] at h
    subst h
    exact absurd hr (List.not_mem_nil r)
  | cons a rest ih =>
    intro ps h r hr
    rw [processEntries] at h
    split at h
    case isFalse => exact ih ps h r hr
    case isTrue =>
      split at h
      case h_1 => exact absurd h (by simp)
      case h_2 ropt hro =>
        split at h
        case h_1 => exact absurd h (by simp)
        case h_2 rs hrs =>
          rw [Except.ok.injEq] at h
          subst h
          cases ropt with
          | none => exact ih rs hrs r hr
          | some p0 =>
            rw [List.mem_cons] at hr
            cases hr with
            | inl hr =>
              subst hr
              exact processPosition_pnl _ r hro
            | inr hr => exact ih rs hrs r hr

theorem mem_sortByValueDesc (r : Pos) (ps : List Pos) :
    r ∈ sortByValueDesc ps ↔ r ∈ ps :=
  (List.perm_insertionSort valGE ps).mem_iff

theorem get_whale_positions_pnl (o : FetchOutcome) (r : Pos)
    (h : r ∈ get_whale_positions o) : pnlFormula r := by
  cases o with
  | timeout => exact absurd h (List.not_mem_nil r)
  | connError => exact absurd h (List.not_mem_nil r)
  | response status body =>
    simp only [get_whale_positions] at h
    split at h
    case isFalse => exact absurd h (List.not_mem_nil r)
    case isTrue =>
      split at h
      case h_1 => exact absurd h (List.not_mem_nil r)
      case h_2 st =>
        split at h
        case h_2 => exact absurd h (List.not_mem_nil r)
        case h_1 ps hps =>
          exact processEntries_pnl _ ps hps r ((mem_sortByValueDesc r ps).1 h)

theorem splitNN_head_run :
    ∀ (v w : List Char), (∀ c ∈ v, c ≠ '\n') →
      ∃ p ps, splitNN (v ++ w) = p :: ps ∧ v.length ≤ p.length := by
  intro v
  induction v with
  | nil =>
    intro w _
    cases hs : splitNN w with
    | nil => exact absurd hs (splitNN_ne_nil w)
    | cons p ps => exact ⟨p, ps, by simpa using hs, by simp⟩
  | cons c v' ih =>
    intro w hv
    have hc : c ≠ '\n' := hv c (List.mem_cons_self c v')
    have hv' : ∀ x ∈ v', x ≠ '\n' := fun x hx => hv x (List.mem_cons_of_mem c hx)
    obtain ⟨p, ps, hsp, hlen⟩ := ih w hv'
    rw [List.cons_append, splitNN, hsp]
    · exact ⟨c :: p, ps, rfl, by simpa using Nat.succ_le_succ hlen⟩
    · exact fun _ hc' _ => hc hc'

theorem mem_len_prependChar (c : Char) (l : List (List Char)) (p : List Char)
    (hp : p ∈ l) : ∃ q ∈ prependChar c l, p.length ≤ q.length := by
  cases l with
  | nil => exact absurd hp (List.not_mem_nil p)
  | cons h t =>
    rw [List.mem_cons] at hp
    cases hp with
    | inl hp =>
      subst hp
      refine ⟨c :: p, ?_, by simp⟩
      rw [prependChar]
      exact List.mem_cons_self _ _
    | inr hp =>
      refine ⟨p, ?_, le_refl _⟩
      rw [prependChar]
      exact List.mem_cons_of_mem _ hp

theorem exists_mem_splitNN (s : List Char) : ∃ p, p ∈ splitNN s := by
  cases hs : splitNN s with
  | nil => exact absurd hs (splitNN_ne_nil s)
  | cons p ps => exact ⟨p, List.mem_cons_self p ps⟩

theorem splitNN_big_run_aux :
    ∀ (n : ℕ) (u v w : List Char), u.length ≤ n → (∀ c ∈ v, c ≠ '\n') → v ≠ [] →
      ∃ p ∈ splitNN (u ++ v ++ w), v.length ≤ p.length := by
  intro n
  induction n with
  | zero =>
    intro u v w hu hv _
    have : u = [] := List.eq_nil_of_length_eq_zero (Nat.le_zero.1 hu)
    subst this
    obtain ⟨p, ps, hsp, hlen⟩ := splitNN_head_run v w hv
    rw [List.nil_append, hsp]
    exact ⟨p, List.mem_cons_self p ps, hlen⟩
  | succ n ih =>
    intro u v w hu hv hvne
    cases u with
    | nil =>
      obtain ⟨p, ps, hsp, hlen⟩ := splitNN_head_run v w hv
      rw [List.nil_append, hsp]
      exact ⟨p, List.mem_cons_self p ps, hlen⟩
    | cons c u1 =>
      by_cases hpat : c = '\n' ∧ (u1 ++ v ++ w).head? = some '\n'
      · obtain ⟨hc, hhead⟩ := hpat
        subst hc
        cases u1 with
        | nil =>
          cases v with
          | nil => exact absurd rfl hvne
          | cons x xs =>
            simp at hhead
            exact absurd (hv x (List.mem_cons_self x xs)) (by simp [hhead])
        | cons x u2 =>
          have hx : x = '\n' := by
            simp at hhead
            exact hhead
          subst hx
          have h2 : u2.length ≤ n := by
            simp at hu
            omega
          obtain ⟨p, hp, hlen⟩ := ih u2 v w h2 hv hvne
          refine ⟨p, ?_, hlen⟩
          simp only [List.cons_append]
          rw [splitNN]
          apply List.mem_cons_of_mem
          exact hp
      · have h1 : u1.length ≤ n := by
          simp at hu
          omega
        obtain ⟨p, hp, hlen⟩ := ih u1 v w h1 hv hvne
        simp only [List.cons_append]
        rw [splitNN]
        · obtain ⟨q, hq, hql⟩ := mem_len_prependChar c _ p hp
          exact ⟨q, hq, le_trans hlen hql⟩
        · intro r hc hr
          apply hpat
          refine ⟨hc, ?_⟩
          have : u1 ++ v ++ w = '\n' :: r := by simpa using hr
          rw [this]
          rfl

theorem splitNN_big_run (u v w : List Char) (hv : ∀ c ∈ v, c ≠ '\n') :
    ∃ p ∈ splitNN (u ++ v ++ w), v.length ≤ p.length := by
  by_cases hvne : v = []
  · subst hvne
    obtain ⟨p, hp⟩ := exists_mem_splitNN (u ++ [] ++ w)
    exact ⟨p, hp, by simp⟩
  · exact splitNN_big_run_aux u.length u v w (le_refl _) hv hvne

theorem htmlEscape_replicate_a (n : ℕ) :
    htmlEscape (List.replicate n 'a') = List.replicate n 'a' := by
  induction n with
  | zero => rfl
  | succ k ih =>
    rw [List.replicate_succ]
    show concatAll (('a' :: List.replicate k 'a').map escapeChar) = _
    rw [List.map_cons, concatAll]
    rw [show escapeChar 'a' = ['a'] from rfl]
    show 'a' :: htmlEscape (List.replicate k 'a') = _
    rw [ih]

theorem msg4_step : msg4 = header ts4 ++
    (whaleBlock ⟨addr4, bigName⟩ [pos4] ++ footer 1 1 1 (sumVal [pos4])) := by
  unfold msg4 get_all_whale_positions
  rw [reportLoop_spec]
  have ha : activeWhales fetch4 [⟨addr4, bigName⟩] = [⟨addr4, bigName⟩] := by
    simp [activeWhales, fetch4]
  rw [ha]
  simp only [List.map, concatAll, List.length_cons, List.length_nil, List.sum_cons,
    List.sum_nil, zero_add, add_zero, fetch4, List.append_nil, List.length_singleton]
  rw [if_neg (by norm_num)]
  rw [List.append_assoc]

theorem msg4_decomp : msg4 = u4 ++ (bigName ++ w4t) := by
  rw [msg4_step]
  unfold u4 w4t whaleBlock bigName
  dsimp only
  rw [htmlEscape_replicate_a 4100]
  simp only [List.append_assoc]

theorem bigName_no_newline : ∀ c ∈ bigName, c ≠ '\n' := by
  intro c hc
  have h := List.eq_of_mem_replicate hc
  subst h
  decide

theorem msg4_long : 4000 < msg4.length := by
  rw [msg4_decomp]
  rw [List.length_append, List.length_append]
  rw [show bigName.length = 4100 from by rw [bigName]; exact List.length_replicate 4100 'a']
  omega

theorem msg4_over : ∃ m ∈ handlePayloads msg4, 4000 < m.length := by
  have hbig : ∃ p ∈ splitNN msg4, 4000 < p.length := by
    obtain ⟨p, hp, hlen⟩ := splitNN_big_run u4 bigName w4t bigName_no_newline
    refine ⟨p, ?_, ?_⟩
    · rw [msg4_decomp, ← List.append_assoc]
      exact hp
    · have hbn : bigName.length = 4100 := by
        rw [bigName]
        exact List.length_replicate 4100 'a'
      omega
  rw [handlePayloads, if_pos msg4_long]
  exact split_message_big_part msg4 hbig

theorem mem_concatAll {c : Char} :
    ∀ L : List (List Char), c ∈ concatAll L → ∃ l ∈ L, c ∈ l := by
  intro L
  induction L with
  | nil =>
    intro h
    exact absurd h (List.not_mem_nil c)
  | cons x xs ih =>
    intro h
    rw [concatAll, List.mem_append] at h
    cases h with
    | inl h => exact ⟨x, List.mem_cons_self x xs, h⟩
    | inr h =>
      obtain ⟨l, hl, hcl⟩ := ih h
      exact ⟨l, List.mem_cons_of_mem x hl, hcl⟩

theorem escapeChar_no_markup (c0 c : Char) (h : c ∈ escapeChar c0) :
    c ≠ '<' ∧ c ≠ '>' := by
  unfold escapeChar at h
  split_ifs at h with h1 h2 h3 h4 h5
  · fin_cases h <;> exact ⟨by decide, by decide⟩
  · fin_cases h <;> exact ⟨by decide, by decide⟩
  · fin_cases h <;> exact ⟨by decide, by decide⟩
  · fin_cases h <;> exact ⟨by decide, by decide⟩
  · fin_cases h <;> exact ⟨by decide, by decide⟩
  · rw [List.mem_singleton] at h
    subst h
    exact ⟨h2, h3⟩

theorem htmlEscape_no_markup (name : List Char) (c : Char)
    (h : c ∈ htmlEscape name) : c ≠ '<' ∧ c ≠ '>' := by
  obtain ⟨l, hl, hcl⟩ := mem_concatAll _ h
  obtain ⟨c0, _, he⟩ := List.mem_map.1 hl
  rw [← he] at hcl
  exact escapeChar_no_markup c0 c hcl

set_option maxRecDepth 20000

/-- C1: `get_whale_positions` never raises to its caller (it is a total
function of the fetch outcome), and on a timeout, a connection error, a
non-200 status, a body-decoding failure, or an exception while
processing the entries of a 200 response, it returns the empty list. -/
theorem claim_C1 :
    get_whale_positions .timeout = [] ∧
    get_whale_positions .connError = [] ∧
    (∀ (s : ℕ) (b : Except (List Char) RawState), s ≠ 200 →
      get_whale_positions (.response s b) = []) ∧
    (∀ (s : ℕ) (err : List Char),
      get_whale_positions (.response s (.error err)) = []) ∧
    (∀ (st : RawState) (err : List Char),
      processEntries (st.assetPositions.getD []) = .error err →
      get_whale_positions (.response 200 (.ok st)) = []) := by
  refine ⟨rfl, rfl, ?_, ?_, ?_⟩
  · intro s b h
    simp [get_whale_positions, h]
  · intro s err
    by_cases h : s = 200 <;> simp [get_whale_positions, h]
  · intro st err h
    simp [get_whale_positions, h]

/-- C1 witness: the failure branches evaluated at concrete inputs — a
404 response, a 200 response with an undecodable body, and a 200
response whose only entry has a non-numeric signed size. -/
theorem claim_C1_witness :
    get_whale_positions (.response 404 (.ok stGood)) = [] ∧
    get_whale_positions (.response 200 (.error (lit "invalid json"))) = [] ∧
    get_whale_positions (.response 200 (.ok stBad)) = [] :=
  ⟨claim_C1.2.2.1 404 (.ok stGood) (by decide),
   claim_C1.2.2.2.1 200 (lit "invalid json"),
   claim_C1.2.2.2.2 stBad (lit "could not convert string to float")
     (by with_unfolding_all rfl)⟩

/-- C2: for a raw position entry whose fields parse, a record is
produced exactly when the coin is whitelisted and the signed size is
nonzero; every produced record is LONG iff the signed size is positive,
and stores the absolute value of the signed size. -/
theorem claim_C2 (p : RawPosition) (c : List Char) (sz e m u : ℚ)
    (hc : p.coin.getD (JVal.jstr []) = JVal.jstr c)
    (hsz : pyFloat (p.szi.getD (JVal.jnum 0)) = .ok sz)
    (he : pyFloat (p.entryPx.getD (JVal.jnum 0)) = .ok e)
    (hm : pyFloat (p.markPx.getD (JVal.jnum e)) = .ok m)
    (hu : pyFloat (p.unrealizedPnl.getD (JVal.jnum 0)) = .ok u) :
    ((∃ r, processPosition p = .ok (some r)) ↔
      (WHITELISTED_TOKENS.contains c = true ∧ sz ≠ 0)) ∧
    (∀ r, processPosition p = .ok (some r) →
      (r.side = Side.LONG ↔ 0 < sz) ∧ r.size = |sz|) := by
  unfold processPosition
  rw [hc]
  dsimp only
  by_cases hwl : WHITELISTED_TOKENS.contains c = true
  · rw [if_pos hwl, hsz]
    dsimp only
    by_cases hz : sz = 0
    · rw [if_pos hz]
      constructor
      · constructor
        · intro hex
          obtain ⟨r, hr⟩ := hex
          exact absurd hr (by simp)
        · intro hcond
          exact absurd hz hcond.2
      · intro r hr
        exact absurd hr (by simp)
    · rw [if_neg hz, he]
      dsimp only
      rw [hm]
      dsimp only
      rw [hu]
      dsimp only
      constructor
      · constructor
        · intro _
          exact ⟨hwl, hz⟩
        · intro _
          exact ⟨_, rfl⟩
      · intro r hr
        rw [Except.ok.injEq, Option.some.injEq] at hr
        subst hr
        constructor
        · constructor
          · intro hside
            by_contra hpos
            simp [hpos] at hside
          · intro hpos
            simp [hpos]
        · rfl
  · rw [if_neg hwl]
    constructor
    · constructor
      · intro hex
        obtain ⟨r, hr⟩ := hex
        exact absurd hr (by simp)
      · intro hcond
        exact absurd hcond.1 hwl
    · intro r hr
      exact absurd hr (by simp)

/-- C2 witness: the characterization applied to a concrete ETH short of
signed size -3 with an absent mark price. -/
theorem claim_C2_witness :
    ((∃ r, processPosition p2 = .ok (some r)) ↔
      (WHITELISTED_TOKENS.contains (lit "ETH") = true ∧ (-3 : ℚ) ≠ 0)) ∧
    (∀ r, processPosition p2 = .ok (some r) →
      (r.side = Side.LONG ↔ 0 < (-3 : ℚ)) ∧ r.size = |(-3 : ℚ)|) :=
  claim_C2 p2 (lit "ETH") (-3) 10 10 1 rfl rfl rfl rfl rfl

/-- C3: the report aggregation. The active-whale counter equals the
number of configured whales with a non-empty fetched position list, the
position counter equals the sum of the per-whale position counts, the
value counter equals the exact sum over included whales of the sums of
their position values, and the rendered report is the header, the blocks
of the active whales only, and then either the no-active line or a
footer carrying these totals together with the number of configured
whales. -/
theorem claim_C3 (ts : List Char) (whales : List WhaleConfig)
    (fetch : List Char → List Pos) :
    (reportLoop fetch whales { msg := header ts, active := 0, npos := 0, value := 0 }).active =
      (activeWhales fetch whales).length ∧
    (reportLoop fetch whales { msg := header ts, active := 0, npos := 0, value := 0 }).npos =
      (((activeWhales fetch whales).map (fun w => (fetch w.address).length)).sum) ∧
    (reportLoop fetch whales { msg := header ts, active := 0, npos := 0, value := 0 }).value =
      (((activeWhales fetch whales).map (fun w => sumVal (fetch w.address))).sum) ∧
    get_all_whale_positions ts whales fetch =
      header ts ++
        concatAll ((activeWhales fetch whales).map (fun w => whaleBlock w (fetch w.address))) ++
        (if (activeWhales fetch whales).length = 0 then noActiveLine
         else footer (activeWhales fetch whales).length whales.length
          (((activeWhales fetch whales).map (fun w => (fetch w.address).length)).sum)
          (((activeWhales fetch whales).map (fun w => sumVal (fetch w.address))).sum)) := by
  rw [reportLoop_spec]
  refine ⟨by simp, by simp, by simp, ?_⟩
  unfold get_all_whale_positions
  rw [reportLoop_spec]
  dsimp only
  rw [zero_add, zero_add, zero_add]
  by_cases h : (activeWhales fetch whales).length = 0
  · rw [if_pos h, if_pos h, List.append_assoc]
  · rw [if_neg h, if_neg h, List.append_assoc]

/-- C4 counterexample: a generated report (one whale whose configured
display name is 4100 characters) whose full text exceeds 4000
characters and for which the emitted payloads contain one longer than
4000 characters, contradicting the claimed per-payload bound. -/
theorem claim_C4_counterexample :
    4000 < msg4.length ∧ ∃ m ∈ handlePayloads msg4, 4000 < m.length :=
  ⟨msg4_long, msg4_over⟩

/-- C4 amended: payloads are built by greedily joining consecutive
double-newline-separated segments, and whenever every segment of the
report is at most 3997 characters, every emitted payload is at most
4000 characters; a single segment longer than the budget (and a whale
block, which contains double newlines between its positions) is not
protected. -/
theorem claim_C4 (s : List Char) (h : ∀ p ∈ splitNN s, p.length ≤ 3997) :
    ∀ m ∈ handlePayloads s, m.length ≤ 4000 := by
  intro m hm
  rw [handlePayloads] at hm
  split at hm
  case isTrue hbig =>
    rw [split_message] at hm
    exact smLoop_bound (splitNN s) [] [] h (by simp) (by simp) m hm
  case isFalse hbig =>
    rw [List.mem_singleton] at hm
    subst hm
    omega

/-- C4 witness: the amended bound applied to a concrete small report
text. -/
theorem claim_C4_witness : (lit "ab\n\ncd").length ≤ 4000 :=
  claim_C4 (lit "ab\n\ncd") (by with_unfolding_all decide)
    (lit "ab\n\ncd") (by with_unfolding_all decide)

/-- C5: every record produced by `get_whale_positions` satisfies the
P&L-percentage formula (price-delta over entry, signed by side, zero
when the entry price is not positive), and the worked example — entry
100, mark 150, signed size +2 — yields a LONG record with pnl_pct 50,
value 300, and the triple-rocket emoji tier. -/
theorem claim_C5 :
    (∀ (o : FetchOutcome) (r : Pos), r ∈ get_whale_positions o →
      r.pnl_pct =
        if 0 < r.entry_price then
          if r.side = Side.LONG then ((r.mark_price - r.entry_price) / r.entry_price) * 100
          else ((r.entry_price - r.mark_price) / r.entry_price) * 100
        else 0) ∧
    (get_whale_positions o5 = [r5] ∧ r5.side = Side.LONG ∧ r5.pnl_pct = 50 ∧
      r5.value = 300 ∧ get_pnl_emoji r5.pnl_pct = lit "🚀🚀🚀") := by
  constructor
  · intro o r h
    exact get_whale_positions_pnl o r h
  · refine ⟨?_, ?_, ?_, ?_, ?_⟩ <;> with_unfolding_all decide

/-- C5 witness: the formula applied to the record fetched from the
worked example. -/
theorem claim_C5_witness :
    r5.pnl_pct =
      if 0 < r5.entry_price then
        if r5.side = Side.LONG then ((r5.mark_price - r5.entry_price) / r5.entry_price) * 100
        else ((r5.entry_price - r5.mark_price) / r5.entry_price) * 100
      else 0 :=
  claim_C5.1 o5 r5 (by with_unfolding_all decide)

/-- C6: the position list returned by `get_whale_positions` is always
ordered by value non-increasing. -/
theorem claim_C6 (o : FetchOutcome) :
    (get_whale_positions o).Pairwise (fun a b => b.value ≤ a.value) := by
  cases o with
  | timeout => exact List.Pairwise.nil
  | connError => exact List.Pairwise.nil
  | response status body =>
    simp only [get_whale_positions]
    split
    case isFalse => exact List.Pairwise.nil
    case isTrue =>
      split
      case h_1 => exact List.Pairwise.nil
      case h_2 st =>
        split
        case h_2 => exact List.Pairwise.nil
        case h_1 ps hps => exact List.sorted_insertionSort valGE ps

/-- C7: when no configured whale has a qualifying position, the
generated report is exactly the header followed by the single italic
no-active line, and that line carries no summary footer. -/
theorem claim_C7 (ts : List Char) (whales : List WhaleConfig)
    (fetch : List Char → List Pos) (h : ∀ w ∈ whales, fetch w.address = []) :
    get_all_whale_positions ts whales fetch = header ts ++ noActiveLine ∧
    hasSub (lit "SUMMARY") noActiveLine = false := by
  constructor
  · have hact : activeWhales fetch whales = [] := by
      rw [activeWhales, List.filter_eq_nil_iff]
      intro w hw
      simp [h w hw]
    unfold get_all_whale_positions
    rw [reportLoop_spec, hact]
    simp [concatAll]
  · decide

/-- C7 witness: one configured whale whose fetch yields no positions. -/
theorem claim_C7_witness :
    get_all_whale_positions ts8 [⟨lit "0xdeadbeef1234", lit "W"⟩] (fun _ => []) =
      header ts8 ++ noActiveLine ∧
    hasSub (lit "SUMMARY") noActiveLine = false :=
  claim_C7 ts8 [⟨lit "0xdeadbeef1234", lit "W"⟩] (fun _ => [])
    (by intro w _; rfl)

/-- C8: the escaped form of any display name contains no raw angle
bracket; and in the concrete report for a whale named with markup, the
escaped name appears in the rendered message while the raw markup does
not. -/
theorem claim_C8 :
    (∀ (name : List Char) (c : Char), c ∈ htmlEscape name → c ≠ '<' ∧ c ≠ '>') ∧
    htmlEscape (lit "<script>") = lit "&lt;script&gt;" ∧
    hasSub (lit "&lt;script&gt;") msg8 = true ∧
    hasSub (lit "<script>") msg8 = false := by
  refine ⟨htmlEscape_no_markup, ?_, ?_, ?_⟩ <;> with_unfolding_all decide

/-- C8 witness: the no-raw-markup guarantee applied to one concrete
name and character. -/
theorem claim_C8_witness : 'a' ≠ '<' ∧ 'a' ≠ '>' :=
  claim_C8.1 (lit "a<b") 'a' (by with_unfolding_all decide)

/-- C9 counterexample: a record whose price-derived percentage is
negative (-50) while its upstream unrealized P&L is positive; the code
renders its P&L line with a plus prefix on the percentage and no minus
sign anywhere, so the percentage is not prefixed by the sign of
pnl_pct. -/
theorem claim_C9_counterexample :
    get_whale_positions (.response 200 (.ok st9)) = [r9] ∧
    r9.pnl_pct < 0 ∧ 0 ≤ r9.pnl_usd ∧
    hasSub (lit "-") (pnlLine r9) = false ∧
    hasSub (lit "+50.00%") (pnlLine r9) = true := by
  refine ⟨?_, ?_, ?_, ?_, ?_⟩ <;> with_unfolding_all decide

/-- C9 amended: in every rendered P&L line a single sign prefix —
chosen by the sign of unrealizedPnlUsd alone — is applied to both the
absolute USD amount and the absolute percentage (2 decimals), even when
pnlPct has the opposite sign. -/
theorem claim_C9 (p : Pos) :
    ∃ sgn : List Char,
      pnlLine p = lit "  P&L: <b>" ++ sgn ++ format_value |p.pnl_usd| ++
        lit "</b> (<b>" ++ sgn ++ fmt2 |p.pnl_pct| ++ lit "%</b>)\n" ∧
      (sgn = lit "+" ↔ 0 ≤ p.pnl_usd) := by
  have e1 : lit "  P&L: <b>" ++ lit "+" = lit "  P&L: <b>+" := rfl
  have e2 : lit "</b> (<b>" ++ lit "+" = lit "</b> (<b>+" := rfl
  have e3 : lit "  P&L: <b>" ++ lit "-" = lit "  P&L: <b>-" := rfl
  have e4 : lit "</b> (<b>" ++ lit "-" = lit "</b> (<b>-" := rfl
  by_cases h : 0 ≤ p.pnl_usd
  · refine ⟨lit "+", ?_, by simp [h]⟩
    rw [pnlLine, if_pos h, ← e1, ← e2]
    simp only [List.append_assoc]
  · refine ⟨lit "-", ?_, ?_⟩
    · rw [pnlLine, if_neg h, ← e3, ← e4]
      simp only [List.append_assoc]
    · constructor
      · intro hs
        exact absurd hs (by decide)
      · intro hge
        exact absurd hge h

/-- C10: when every double-newline-separated segment of a string is
non-empty, joining the payloads of `split_message` with the double
newline restores the original string exactly. -/
theorem claim_C10 (s : List Char) (h : ∀ p ∈ splitNN s, p ≠ []) :
    joinNN (split_message s) = s := by
  rw [split_message]
  cases hs : splitNN s with
  | nil => exact absurd hs (splitNN_ne_nil s)
  | cons p ps =>
    rw [hs] at h
    have hp : p ≠ [] := h p (List.mem_cons_self p ps)
    have hps : ∀ q ∈ ps, q ≠ [] := fun q hq => h q (List.mem_cons_of_mem p hq)
    rw [smLoop_cons_nil, joinNN_smLoop ps p hps hp, ← hs, joinNN_splitNN]

/-- C10 witness: the roundtrip at a concrete three-segment string. -/
theorem claim_C10_witness :
    joinNN (split_message (lit "ab\n\ncd\n\nef")) = lit "ab\n\ncd\n\nef" :=
  claim_C10 (lit "ab\n\ncd\n\nef") (by with_unfolding_all decide)
